import Mathlib

/-!
Verification development for the keynesis repository: a shallow embedding of
the key-derivation module (`keynesis-core/src/key`) and of the Noise transport
session (`keynesis-core/src/noise/transport_state.rs`), with theorems settling
the spec's claims about them.

The sources under `src/` show the transport-state layer and the `Dh` trait;
the concrete elliptic-curve arithmetic, the HD derivation bodies and the
`CipherState` implementation live in files of the repository that are not part
of the excerpt, so those parts are modelled from the spec (each such
definition is marked `Modelled from the spec:` in its doc comment).
-/

namespace Keynesis

/-- Decidable equality of `Except` results, needed to evaluate the model's
fallible operations on concrete inputs. -/
instance {ε α : Type} [DecidableEq ε] [DecidableEq α] : DecidableEq (Except ε α) := fun a b =>
  match a, b with
  | .error e1, .error e2 =>
    if h : e1 = e2 then .isTrue (by rw [h]) else .isFalse (fun hc => h (Except.error.inj hc))
  | .error _, .ok _ => .isFalse (fun hc => Except.noConfusion hc)
  | .ok _, .error _ => .isFalse (fun hc => Except.noConfusion hc)
  | .ok v1, .ok v2 =>
    if h : v1 = v2 then .isTrue (by rw [h]) else .isFalse (fun hc => h (Except.ok.inj hc))

namespace Key

/-- Modelled from the spec: the group modulus of the abstract elliptic-curve
group standing in for curve25519/ed25519 points. We use the multiplicative
group of integers modulo the prime `p`, a faithful abstraction of the
discrete-log group the spec's DH and HD derivation operate in. -/
def p : Nat := 251

/-- Modelled from the spec: the fixed base point (generator) of the group. -/
def g : Nat := 6

/-- Modelled from the spec: the order modulus used for secret scalars
(exponents), namely `p - 1`, so that Fermat's little theorem gives
`g ^ (p - 1) ≡ 1 [MOD p]`. -/
def ord : Nat := 250

/-- Modelled from the spec: the deterministic hash turning an
arbitrary-length byte-string derivation path into a scalar offset
(spec §4.2: derivation is a deterministic function of (current key, path)). -/
def pathHash (path : List Nat) : Nat :=
  path.foldl (fun acc c => (acc * 31 + c) % ord) 7

/-- A secret key is a scalar (the secret exponent). -/
abbrev SecretKey := Nat

/-- A public key is a group element (a residue mod `p`). -/
abbrev PublicKey := Nat

/-- Modelled from the spec: `public_key` projects a secret scalar to its
public group element `g ^ sk mod p` (spec §4.1: a pure, deterministic
projection). -/
def public_key (sk : SecretKey) : PublicKey :=
  g ^ sk % p

/-- Modelled from the spec: secret-side HD derivation — the child secret is
the parent secret shifted by the path hash, reduced modulo the group order
(spec §4.2: deterministic function of (current key, path), same kind). -/
def SecretKey.derive (sk : SecretKey) (path : List Nat) : SecretKey :=
  (sk + pathHash path) % ord

/-- Modelled from the spec: public-side HD derivation — multiplies the public
point by `g ^ pathHash path`, using no secret material; returns `none` when
the child would be the degenerate identity point (spec §4.2 edge case: a
derivation step producing a degenerate key must report failure). -/
def PublicKey.derive (pk : PublicKey) (path : List Nat) : Option PublicKey :=
  let child := pk * (g ^ pathHash path % p) % p
  if child = 1 then none else some child

/-- Modelled from the spec: the DH exchange producing a `SharedSecret` from a
secret scalar and a peer public point (spec §4.1). -/
def exchange (sk : SecretKey) (pk : PublicKey) : Nat :=
  pk ^ sk % p

/-- The derivation path `b"encryption:bob"` from the worked example in
`key/mod.rs`, as its byte values. -/
def pathEncryptionBob : List Nat :=
  [101, 110, 99, 114, 121, 112, 116, 105, 111, 110, 58, 98, 111, 98]

/-- The derivation path `b"encryption:alice"` from the worked example in
`key/mod.rs`, as its byte values. -/
def pathEncryptionAlice : List Nat :=
  [101, 110, 99, 114, 121, 112, 116, 105, 111, 110, 58, 97, 108, 105, 99, 101]

end Key

namespace Noise

/-- Modelled from the spec: the symmetric key held by a `CipherState`.
`rekey` replaces the key by a one-way derivation of the current key
(spec §4.4); we keep the derivation chain symbolic so that each rekeying
step yields a key distinct from every earlier one. -/
inductive CipherKey where
  | seed (s : Nat)
  | rekeyed (k : CipherKey)
deriving DecidableEq, Repr

/-- Modelled from the spec: the byte-level key material a `CipherKey`
contributes to the keystream and to the authentication tag. -/
def CipherKey.material : CipherKey → Nat
  | .seed s => s % 256
  | .rekeyed k => (k.material * 31 + 7) % 256

/-- Modelled from the spec: the keystream byte of key `k` at nonce `n`,
byte position `i` (the AEAD's stream cipher, spec §4.4). -/
def keystream (k : CipherKey) (n i : Nat) : Nat :=
  (k.material + 131 * n + 17 * i + 1) % 256

/-- Modelled from the spec: encrypt the bytes of `input` starting at byte
position `i` under key `k` and nonce `n`. -/
def encryptFrom (k : CipherKey) (n : Nat) : Nat → List Nat → List Nat
  | _, [] => []
  | i, v :: vs => (v + keystream k n i) % 256 :: encryptFrom k n (i + 1) vs

/-- Modelled from the spec: decrypt the bytes of `body` starting at byte
position `i` under key `k` and nonce `n`. -/
def decryptFrom (k : CipherKey) (n : Nat) : Nat → List Nat → List Nat
  | _, [] => []
  | i, c :: cs => (c + (256 - keystream k n i)) % 256 :: decryptFrom k n (i + 1) cs

/-- The length of the AEAD authentication tag (MAC), 16 bytes
(`CipherState::TAG_LEN` in the source). -/
def TAG_LEN : Nat := 16

/-- Modelled from the spec: the 16-byte authentication tag over the
associated data and the ciphertext body, bound to the key and nonce
(spec §4.4: the tag proves integrity and authenticity). -/
def macTag (k : CipherKey) (n : Nat) (ad body : List Nat) : List Nat :=
  (k.material + 131 * n + ad.sum + body.sum) % 256 :: List.replicate (TAG_LEN - 1) 0

/-- Error type of the cipher operations (`CipherStateError` in the source). -/
inductive CipherStateError where
  | notEnoughOutput
  | notEnoughInput
  | authenticationFailed
deriving DecidableEq, Repr

/-- Modelled from the spec: one nonce-incrementing AEAD instance
(spec §3, §4.4): a symmetric key plus a nonce counter. -/
structure CipherState where
  k : CipherKey
  n : Nat
deriving DecidableEq, Repr

/-- Modelled from the spec: AEAD encryption (spec §4.4). The output buffer
(of length `outLen`) must be at least `TAG_LEN` bytes longer than the input,
otherwise the call fails; on success the ciphertext body plus tag is written
and the nonce is consumed (incremented). -/
def CipherState.encrypt_with_ad (cs : CipherState) (ad input : List Nat) (outLen : Nat) :
    Except CipherStateError (CipherState × List Nat) :=
  if outLen < input.length + TAG_LEN then .error .notEnoughOutput
  else
    let body := encryptFrom cs.k cs.n 0 input
    .ok (⟨cs.k, cs.n + 1⟩, body ++ macTag cs.k cs.n ad body)

/-- Modelled from the spec: AEAD decryption (spec §4.4). The input carries
the tag in its last `TAG_LEN` bytes; the output buffer may be up to
`TAG_LEN` bytes shorter than the input but no shorter, the tag is verified
and any mismatch is an authentication failure; on success the nonce is
consumed (incremented). -/
def CipherState.decrypt_with_ad (cs : CipherState) (ad input : List Nat) (outLen : Nat) :
    Except CipherStateError (CipherState × List Nat) :=
  if input.length < TAG_LEN then .error .notEnoughInput
  else if outLen < input.length - TAG_LEN then .error .notEnoughOutput
  else
    let body := input.take (input.length - TAG_LEN)
    let tag := input.drop (input.length - TAG_LEN)
    if tag = macTag cs.k cs.n ad body then
      .ok (⟨cs.k, cs.n + 1⟩, decryptFrom cs.k cs.n 0 body)
    else .error .authenticationFailed

/-- Modelled from the spec: `rekey()` replaces the current key with a
one-way derivation of itself and resets the nonce to the initial value
(spec §4.4, §3). -/
def CipherState.rekey (cs : CipherState) : CipherState :=
  ⟨.rekeyed cs.k, 0⟩

/-- Projection of the nonce counter (`CipherState::nonce().into_u64()`). -/
def CipherState.nonce (cs : CipherState) : Nat :=
  cs.n

/-- The remote party's public identity carried by the transport state
(`ed25519::PublicKey` in the source, kept abstract here). -/
abbrev PublicKey := Nat

/-- Noise transport session between two participants
(`TransportState` in `transport_state.rs`): handshake hash, one
`CipherState` for the outbound direction, one for the inbound direction,
and the remote identity. The field `localC` embeds the source field
`local` (a reserved word here). -/
structure TransportState (H : Type) where
  handshake_hash : H
  localC : CipherState
  remote : CipherState
  remote_id : PublicKey
deriving DecidableEq, Repr

/-- The sending half produced by `split` (`TransportSendHalf`). -/
structure TransportSendHalf (H : Type) where
  handshake_hash : H
  localC : CipherState
  remote_id : PublicKey
deriving DecidableEq, Repr

/-- The receiving half produced by `split` (`TransportReceiveHalf`). -/
structure TransportReceiveHalf (H : Type) where
  handshake_hash : H
  remote : CipherState
  remote_id : PublicKey
deriving DecidableEq, Repr

/-- `TransportState::split`: consume the transport state and return the
sending half and the receiving half. -/
def TransportState.split (st : TransportState H) :
    TransportSendHalf H × TransportReceiveHalf H :=
  (⟨st.handshake_hash, st.localC, st.remote_id⟩,
   ⟨st.handshake_hash, st.remote, st.remote_id⟩)

/-- `TransportState::noise_session`: unique identifier of the noise session. -/
def TransportState.noise_session (st : TransportState H) : H :=
  st.handshake_hash

/-- `TransportState::remote_public_identity`. -/
def TransportState.remote_public_identity (st : TransportState H) : PublicKey :=
  st.remote_id

/-- `TransportState::count_received`: the number of messages received from
the remote peer, read off the inbound `CipherState`'s nonce. -/
def TransportState.count_received (st : TransportState H) : Nat :=
  st.remote.nonce

/-- `TransportState::count_sent`: the number of messages sent to the remote
peer, read off the outbound `CipherState`'s nonce. -/
def TransportState.count_sent (st : TransportState H) : Nat :=
  st.localC.nonce

/-- `TransportState::send`: encrypt `input` with empty associated data into
an output buffer of length `outLen`, then rekey the outbound `CipherState`. -/
def TransportState.send (st : TransportState H) (input : List Nat) (outLen : Nat) :
    Except CipherStateError (TransportState H × List Nat) :=
  match st.localC.encrypt_with_ad [] input outLen with
  | .error e => .error e
  | .ok (cs, c) => .ok ({ st with localC := cs.rekey }, c)

/-- `TransportState::receive`: decrypt `input` with empty associated data
into an output buffer of length `outLen`, then rekey the inbound
`CipherState`. -/
def TransportState.receive (st : TransportState H) (input : List Nat) (outLen : Nat) :
    Except CipherStateError (TransportState H × List Nat) :=
  match st.remote.decrypt_with_ad [] input outLen with
  | .error e => .error e
  | .ok (cs, o) => .ok ({ st with remote := cs.rekey }, o)

/-- `TransportSendHalf::noise_session`. -/
def TransportSendHalf.noise_session (s : TransportSendHalf H) : H :=
  s.handshake_hash

/-- `TransportSendHalf::count_sent`. -/
def TransportSendHalf.count_sent (s : TransportSendHalf H) : Nat :=
  s.localC.nonce

/-- `TransportSendHalf::send`: same contract as `TransportState::send`. -/
def TransportSendHalf.send (s : TransportSendHalf H) (input : List Nat) (outLen : Nat) :
    Except CipherStateError (TransportSendHalf H × List Nat) :=
  match s.localC.encrypt_with_ad [] input outLen with
  | .error e => .error e
  | .ok (cs, c) => .ok ({ s with localC := cs.rekey }, c)

/-- `TransportReceiveHalf::noise_session`. -/
def TransportReceiveHalf.noise_session (r : TransportReceiveHalf H) : H :=
  r.handshake_hash

/-- `TransportReceiveHalf::count_received`. -/
def TransportReceiveHalf.count_received (r : TransportReceiveHalf H) : Nat :=
  r.remote.nonce

/-- `TransportReceiveHalf::receive`: same contract as
`TransportState::receive`. -/
def TransportReceiveHalf.receive (r : TransportReceiveHalf H) (input : List Nat) (outLen : Nat) :
    Except CipherStateError (TransportReceiveHalf H × List Nat) :=
  match r.remote.decrypt_with_ad [] input outLen with
  | .error e => .error e
  | .ok (cs, o) => .ok ({ r with remote := cs.rekey }, o)

/-- One direction of `tests::test_transport` in `transport_state.rs`: party
`a` sends each message in turn into a buffer of length `len + TAG_LEN`,
party `b` receives the ciphertext into a buffer of length `len`; the
decrypted outputs are collected in order. -/
def runPipe (msgs : List (List Nat)) (a b : TransportState H) :
    Except CipherStateError (TransportState H × TransportState H × List (List Nat)) :=
  match msgs with
  | [] => .ok (a, b, [])
  | m :: ms =>
    match a.send m (m.length + TAG_LEN) with
    | .error e => .error e
    | .ok (a', c) =>
      match b.receive c m.length with
      | .error e => .error e
      | .ok (b', o) =>
        match runPipe ms a' b' with
        | .error e => .error e
        | .ok (a'', b'', os) => .ok (a'', b'', o :: os)

/-- An operation on a split pair: either a send on the sending half or a
receive on the receiving half. -/
inductive HalfOp where
  | sendOp (input : List Nat) (outLen : Nat)
  | recvOp (input : List Nat) (outLen : Nat)
deriving DecidableEq, Repr

/-- Perform one send on the sending half, keeping the previous state when
the operation fails, and report the operation's result. -/
def sendStep (s : TransportSendHalf H) (input : List Nat) (outLen : Nat) :
    TransportSendHalf H × Except CipherStateError (List Nat) :=
  match s.send input outLen with
  | .error e => (s, .error e)
  | .ok (s', c) => (s', .ok c)

/-- Perform one receive on the receiving half, keeping the previous state
when the operation fails, and report the operation's result. -/
def recvStep (r : TransportReceiveHalf H) (input : List Nat) (outLen : Nat) :
    TransportReceiveHalf H × Except CipherStateError (List Nat) :=
  match r.receive input outLen with
  | .error e => (r, .error e)
  | .ok (r', o) => (r', .ok o)

/-- Run a list of sends sequentially on the sending half. -/
def runSendOps : List (List Nat × Nat) → TransportSendHalf H →
    TransportSendHalf H × List (Except CipherStateError (List Nat))
  | [], s => (s, [])
  | (input, outLen) :: ops, s =>
    let p := sendStep s input outLen
    let q := runSendOps ops p.1
    (q.1, p.2 :: q.2)

/-- Run a list of receives sequentially on the receiving half. -/
def runRecvOps : List (List Nat × Nat) → TransportReceiveHalf H →
    TransportReceiveHalf H × List (Except CipherStateError (List Nat))
  | [], r => (r, [])
  | (input, outLen) :: ops, r =>
    let p := recvStep r input outLen
    let q := runRecvOps ops p.1
    (q.1, p.2 :: q.2)

/-- The subsequence of send operations of an interleaving. -/
def sendsOf : List HalfOp → List (List Nat × Nat)
  | [] => []
  | .sendOp i o :: ops => (i, o) :: sendsOf ops
  | .recvOp _ _ :: ops => sendsOf ops

/-- The subsequence of receive operations of an interleaving. -/
def recvsOf : List HalfOp → List (List Nat × Nat)
  | [] => []
  | .sendOp _ _ :: ops => recvsOf ops
  | .recvOp i o :: ops => (i, o) :: recvsOf ops

/-- Run an arbitrary interleaving of sends and receives over a split pair,
collecting each half's operation results in order. -/
def runOps : List HalfOp → TransportSendHalf H → TransportReceiveHalf H →
    TransportSendHalf H × TransportReceiveHalf H ×
      List (Except CipherStateError (List Nat)) × List (Except CipherStateError (List Nat))
  | [], s, r => (s, r, [], [])
  | .sendOp i o :: ops, s, r =>
    let p := sendStep s i o
    let q := runOps ops p.1 r
    (q.1, q.2.1, p.2 :: q.2.2.1, q.2.2.2)
  | .recvOp i o :: ops, s, r =>
    let p := recvStep r i o
    let q := runOps ops s p.1
    (q.1, q.2.1, q.2.2.1, p.2 :: q.2.2.2)

/-- Modelled from the spec: completion of the IK handshake (spec §4.5).
Receipt of the final handshake message splits the final symmetric key
material into two independent `CipherState` instances, one per direction,
plus the finished transcript hash, identical on both sides.  `kInit` keys
the initiator-to-responder direction, `kResp` the other; `n0` is the nonce
count both parties' cipher states carry out of the symmetric handshake
phase (the source notes the counters are "tainted" by the handshake, which
is symmetric, so both sides carry the same count).  The initiator's
outbound cipher state equals the responder's inbound one and vice versa. -/
def handshakeComplete (h : H) (kInit kResp : CipherKey) (n0 : Nat)
    (idInit idResp : PublicKey) : TransportState H × TransportState H :=
  (⟨h, ⟨kInit, n0⟩, ⟨kResp, n0⟩, idResp⟩, ⟨h, ⟨kResp, n0⟩, ⟨kInit, n0⟩, idInit⟩)

/-- Flip bit `b` (0-based) of the byte at index `i` of a transmitted byte
sequence. -/
def flipAt (l : List Nat) (i b : Nat) : List Nat :=
  l.set i (l.getD i 0 ^^^ 2 ^ b)

end Noise

namespace Key

theorem fermat_g : g ^ ord % p = 1 := by decide

theorem pow_mod_ord (e : Nat) : g ^ (e % ord) % p = g ^ e % p := by
  conv_rhs =>
    rw [← Nat.div_add_mod e ord, pow_add, pow_mul, Nat.mul_mod, Nat.pow_mod, fermat_g, one_pow]
  rw [show (1 : Nat) % p = 1 by decide, one_mul, Nat.mod_mod_of_dvd _ dvd_rfl]

theorem public_derive_eq (sk : SecretKey) (path : List Nat) :
    public_key sk * (g ^ pathHash path % p) % p = public_key (SecretKey.derive sk path) := by
  unfold public_key SecretKey.derive
  conv_rhs => rw [pow_mod_ord, pow_add, Nat.mul_mod]

theorem derive_pk_eq (sk : SecretKey) (path : List Nat) :
    PublicKey.derive (public_key sk) path =
      if public_key (SecretKey.derive sk path) = 1 then none
      else some (public_key (SecretKey.derive sk path)) := by
  simp only [PublicKey.derive]
  rw [public_derive_eq]

theorem pow_exchange (x y : Nat) : (g ^ x % p) ^ y % p = (g ^ y % p) ^ x % p := by
  rw [← Nat.pow_mod, ← Nat.pow_mod, ← pow_mul, ← pow_mul, Nat.mul_comm]

/-- Claim C3: for every secret key and every derivation path, deriving on the
public side agrees with deriving the secret child and projecting its public
key: `(public_key sk).derive path` yields exactly
`public_key (sk.derive path)`, failing precisely in the degenerate-identity
case the spec's public-side derivation must reject; the public-side
derivation is a function of the public key and the path alone, so it uses no
secret material. -/
theorem derive_public_comm (sk : SecretKey) (path : List Nat) :
    PublicKey.derive (public_key sk) path =
      if public_key (SecretKey.derive sk path) = 1 then none
      else some (public_key (SecretKey.derive sk path)) :=
  derive_pk_eq sk path

/-- Claim C4: when Alice derives her secret with path `b"encryption:bob"` and
exchanges with Bob's root public key derived with `b"encryption:alice"`,
while Bob derives his secret with `b"encryption:alice"` and exchanges with
Alice's root public key derived with `b"encryption:bob"`, the two resulting
shared secrets are identical. -/
theorem shared_secret_agree (a b : SecretKey) (pkB pkA : PublicKey)
    (hB : PublicKey.derive (public_key b) pathEncryptionAlice = some pkB)
    (hA : PublicKey.derive (public_key a) pathEncryptionBob = some pkA) :
    exchange (SecretKey.derive a pathEncryptionBob) pkB =
      exchange (SecretKey.derive b pathEncryptionAlice) pkA := by
  rw [derive_pk_eq] at hB hA
  split at hB
  · exact absurd hB (by simp)
  · split at hA
    · exact absurd hA (by simp)
    · obtain rfl := (Option.some.inj hB).symm
      obtain rfl := (Option.some.inj hA).symm
      simpa [exchange, public_key] using
        pow_exchange (SecretKey.derive b pathEncryptionAlice)
          (SecretKey.derive a pathEncryptionBob)

/-- Witness for C4: concrete root secrets 3 (Alice) and 5 (Bob); both
derived public keys exist and the two shared secrets agree. -/
theorem shared_secret_agree_witness :
    PublicKey.derive (public_key 5) pathEncryptionAlice = some 57 ∧
    PublicKey.derive (public_key 3) pathEncryptionBob = some 169 ∧
    exchange (SecretKey.derive 3 pathEncryptionBob) 57 =
      exchange (SecretKey.derive 5 pathEncryptionAlice) 169 :=
  ⟨by decide, by decide, shared_secret_agree 3 5 57 169 (by decide) (by decide)⟩

end Key

namespace Noise

theorem keystream_lt (k : CipherKey) (n i : Nat) : keystream k n i < 256 :=
  Nat.mod_lt _ (by decide)

theorem length_encryptFrom (k : CipherKey) (n : Nat) :
    ∀ (l : List Nat) (i : Nat), (encryptFrom k n i l).length = l.length := by
  intro l
  induction l with
  | nil => intro i; rfl
  | cons v vs ih => intro i; simp [encryptFrom, ih (i + 1)]

theorem decrypt_encrypt (k : CipherKey) (n : Nat) :
    ∀ (l : List Nat) (i : Nat), (∀ x ∈ l, x < 256) →
      decryptFrom k n i (encryptFrom k n i l) = l := by
  intro l
  induction l with
  | nil => intro i _; rfl
  | cons v vs ih =>
    intro i h
    have hv : v < 256 := h v (by simp)
    have hs := keystream_lt k n i
    simp only [encryptFrom, decryptFrom, List.cons.injEq]
    refine ⟨by omega, ih (i + 1) fun x hx => h x (by simp [hx])⟩

theorem length_macTag (k : CipherKey) (n : Nat) (ad body : List Nat) :
    (macTag k n ad body).length = TAG_LEN := by
  simp [macTag, TAG_LEN]

theorem encrypt_with_ad_eq (cs : CipherState) (ad input : List Nat) (outLen : Nat)
    (h : ¬outLen < input.length + TAG_LEN) :
    cs.encrypt_with_ad ad input outLen =
      .ok (⟨cs.k, cs.n + 1⟩,
        encryptFrom cs.k cs.n 0 input ++
          macTag cs.k cs.n ad (encryptFrom cs.k cs.n 0 input)) := by
  unfold CipherState.encrypt_with_ad
  rw [if_neg h]

theorem decrypt_encrypt_with_ad (k : CipherKey) (n : Nat) (ad m : List Nat)
    (hm : ∀ x ∈ m, x < 256) :
    CipherState.decrypt_with_ad ⟨k, n⟩ ad
      (encryptFrom k n 0 m ++ macTag k n ad (encryptFrom k n 0 m)) m.length =
      .ok (⟨k, n + 1⟩, m) := by
  have hlen : (encryptFrom k n 0 m).length = m.length := length_encryptFrom k n m 0
  have hlenA : (encryptFrom k n 0 m ++ macTag k n ad (encryptFrom k n 0 m)).length
      = m.length + TAG_LEN := by
    simp [hlen, length_macTag]
  simp only [CipherState.decrypt_with_ad, hlenA, Nat.add_sub_cancel]
  rw [if_neg (by simp [TAG_LEN]), if_neg (by omega), ← hlen, List.take_left, List.drop_left,
    if_pos rfl, decrypt_encrypt k n m 0 hm]

theorem send_ok (a : TransportState H) (m : List Nat) :
    a.send m (m.length + TAG_LEN) =
      .ok ({ a with localC := ⟨.rekeyed a.localC.k, 0⟩ },
        encryptFrom a.localC.k a.localC.n 0 m ++
          macTag a.localC.k a.localC.n [] (encryptFrom a.localC.k a.localC.n 0 m)) := by
  simp only [TransportState.send, encrypt_with_ad_eq a.localC [] m (m.length + TAG_LEN)
    (by omega), CipherState.rekey]

theorem receive_ok (b : TransportState H) (k : CipherKey) (n : Nat) (m : List Nat)
    (hmatch : b.remote = ⟨k, n⟩) (hm : ∀ x ∈ m, x < 256) :
    b.receive (encryptFrom k n 0 m ++ macTag k n [] (encryptFrom k n 0 m)) m.length =
      .ok ({ b with remote := ⟨.rekeyed k, 0⟩ }, m) := by
  simp only [TransportState.receive, hmatch, decrypt_encrypt_with_ad k n [] m hm,
    CipherState.rekey]

theorem runPipe_ok (msgs : List (List Nat)) :
    ∀ (a b : TransportState H), b.remote = a.localC →
      (∀ m ∈ msgs, ∀ x ∈ m, x < 256) →
      ∃ a' b', runPipe msgs a b = .ok (a', b', msgs) ∧
        b'.remote = a'.localC ∧
        a'.handshake_hash = a.handshake_hash ∧ b'.handshake_hash = b.handshake_hash ∧
        a'.remote = a.remote ∧ b'.localC = b.localC ∧
        a'.remote_id = a.remote_id ∧ b'.remote_id = b.remote_id := by
  induction msgs with
  | nil =>
    intro a b hmatch _
    exact ⟨a, b, rfl, hmatch, rfl, rfl, rfl, rfl, rfl, rfl⟩
  | cons m ms ih =>
    intro a b hmatch hbytes
    have hsend := send_ok a m
    have hrecv := receive_ok b a.localC.k a.localC.n m (by rw [hmatch]) (hbytes m (by simp))
    obtain ⟨a', b', hrun, hm', h1, h2, h3, h4, h5, h6⟩ :=
      ih { a with localC := ⟨.rekeyed a.localC.k, 0⟩ }
        { b with remote := ⟨.rekeyed a.localC.k, 0⟩ } rfl
        (fun m' hm'' => hbytes m' (by simp [hm'']))
    refine ⟨a', b', ?_, hm', by simpa using h1, by simpa using h2, by simpa using h3,
      by simpa using h4, by simpa using h5, by simpa using h6⟩
    simp only [runPipe, hsend, hrecv, hrun]

/-- Claim C1: for any sequence of plaintext byte messages sent in order from
one party's `TransportState` via `send` and decrypted by the other party's
`TransportState` via `receive` (each `send` and `receive` rekeying its
cipher state, so long sequences span many rekey steps), every plaintext is
recovered exactly: the pipeline returns `.ok` and the list of decrypted
outputs equals the list of messages. -/
theorem transport_roundtrip (msgs : List (List Nat)) (a b : TransportState H)
    (hmatch : b.remote = a.localC)
    (hbytes : ∀ m ∈ msgs, ∀ x ∈ m, x < 256) :
    (runPipe msgs a b).map (fun r => r.2.2) = .ok msgs := by
  obtain ⟨a', b', hrun, _⟩ := runPipe_ok msgs a b hmatch hbytes
  rw [hrun]
  rfl

/-- Witness for C1 at a concrete two-message run. -/
theorem transport_roundtrip_witness :
    (runPipe [[1, 2], [3]]
        (⟨0, ⟨.seed 1, 0⟩, ⟨.seed 2, 0⟩, 0⟩ : TransportState Nat)
        (⟨0, ⟨.seed 2, 0⟩, ⟨.seed 1, 0⟩, 0⟩ : TransportState Nat)).map (fun r => r.2.2) =
      .ok [[1, 2], [3]] :=
  transport_roundtrip [[1, 2], [3]] _ _ rfl (by decide)

theorem encrypt_ok_fst (cs : CipherState) (ad input : List Nat) (outLen : Nat)
    (p : CipherState × List Nat) (h : cs.encrypt_with_ad ad input outLen = .ok p) :
    p.1 = ⟨cs.k, cs.n + 1⟩ := by
  by_cases hc : outLen < input.length + TAG_LEN
  · unfold CipherState.encrypt_with_ad at h
    rw [if_pos hc] at h
    exact absurd h (by simp)
  · rw [encrypt_with_ad_eq cs ad input outLen hc] at h
    rw [← Except.ok.inj h]

theorem decrypt_ok_fst (cs : CipherState) (ad input : List Nat) (outLen : Nat)
    (p : CipherState × List Nat) (h : cs.decrypt_with_ad ad input outLen = .ok p) :
    p.1 = ⟨cs.k, cs.n + 1⟩ := by
  simp only [CipherState.decrypt_with_ad] at h
  split at h
  · exact absurd h (by simp)
  · split at h
    · exact absurd h (by simp)
    · split at h
      · rw [← Except.ok.inj h]
      · exact absurd h (by simp)

theorem send_rekeys (st st' : TransportState H) (input : List Nat) (outLen : Nat)
    (c : List Nat) (h : st.send input outLen = .ok (st', c)) :
    st'.localC = CipherState.rekey ⟨st.localC.k, st.localC.n + 1⟩ := by
  simp only [TransportState.send] at h
  split at h
  · exact absurd h (by simp)
  · rename_i cs c' he
    have hcs : (cs, c').1 = ⟨st.localC.k, st.localC.n + 1⟩ :=
      encrypt_ok_fst st.localC [] input outLen (cs, c') he
    injection h with h'
    injection h' with ha hb
    subst ha
    rw [show cs = ⟨st.localC.k, st.localC.n + 1⟩ from hcs]

theorem receive_rekeys (st st' : TransportState H) (input : List Nat) (outLen : Nat)
    (o : List Nat) (h : st.receive input outLen = .ok (st', o)) :
    st'.remote = CipherState.rekey ⟨st.remote.k, st.remote.n + 1⟩ := by
  simp only [TransportState.receive] at h
  split at h
  · exact absurd h (by simp)
  · rename_i cs o' he
    have hcs : (cs, o').1 = ⟨st.remote.k, st.remote.n + 1⟩ :=
      decrypt_ok_fst st.remote [] input outLen (cs, o') he
    injection h with h'
    injection h' with ha hb
    subst ha
    rw [show cs = ⟨st.remote.k, st.remote.n + 1⟩ from hcs]

theorem half_send_rekeys (s s' : TransportSendHalf H) (input : List Nat) (outLen : Nat)
    (c : List Nat) (h : s.send input outLen = .ok (s', c)) :
    s'.localC = CipherState.rekey ⟨s.localC.k, s.localC.n + 1⟩ := by
  simp only [TransportSendHalf.send] at h
  split at h
  · exact absurd h (by simp)
  · rename_i cs c' he
    have hcs : (cs, c').1 = ⟨s.localC.k, s.localC.n + 1⟩ :=
      encrypt_ok_fst s.localC [] input outLen (cs, c') he
    injection h with h'
    injection h' with ha hb
    subst ha
    rw [show cs = ⟨s.localC.k, s.localC.n + 1⟩ from hcs]

theorem half_receive_rekeys (r r' : TransportReceiveHalf H) (input : List Nat) (outLen : Nat)
    (o : List Nat) (h : r.receive input outLen = .ok (r', o)) :
    r'.remote = CipherState.rekey ⟨r.remote.k, r.remote.n + 1⟩ := by
  simp only [TransportReceiveHalf.receive] at h
  split at h
  · exact absurd h (by simp)
  · rename_i cs o' he
    have hcs : (cs, o').1 = ⟨r.remote.k, r.remote.n + 1⟩ :=
      decrypt_ok_fst r.remote [] input outLen (cs, o') he
    injection h with h'
    injection h' with ha hb
    subst ha
    rw [show cs = ⟨r.remote.k, r.remote.n + 1⟩ from hcs]

/-- Claim C2: every call to `send` or `receive` (on a `TransportState` or on
either split half) that returns `Ok` leaves the cipher state it used equal
to the `rekey` of that cipher state as the operation consumed it — a
successful operation never leaves the caller with an un-rekeyed
`CipherState`. -/
theorem send_receive_rekey :
    (∀ (H : Type) (st st' : TransportState H) (input : List Nat) (outLen : Nat)
        (c : List Nat), st.send input outLen = .ok (st', c) →
        st'.localC = CipherState.rekey ⟨st.localC.k, st.localC.n + 1⟩) ∧
    (∀ (H : Type) (st st' : TransportState H) (input : List Nat) (outLen : Nat)
        (o : List Nat), st.receive input outLen = .ok (st', o) →
        st'.remote = CipherState.rekey ⟨st.remote.k, st.remote.n + 1⟩) ∧
    (∀ (H : Type) (s s' : TransportSendHalf H) (input : List Nat) (outLen : Nat)
        (c : List Nat), s.send input outLen = .ok (s', c) →
        s'.localC = CipherState.rekey ⟨s.localC.k, s.localC.n + 1⟩) ∧
    (∀ (H : Type) (r r' : TransportReceiveHalf H) (input : List Nat) (outLen : Nat)
        (o : List Nat), r.receive input outLen = .ok (r', o) →
        r'.remote = CipherState.rekey ⟨r.remote.k, r.remote.n + 1⟩) :=
  ⟨fun _ st st' input outLen c h => send_rekeys st st' input outLen c h,
   fun _ st st' input outLen o h => receive_rekeys st st' input outLen o h,
   fun _ s s' input outLen c h => half_send_rekeys s s' input outLen c h,
   fun _ r r' input outLen o h => half_receive_rekeys r r' input outLen o h⟩

/-- Witness for C2: a successful send and a successful receive on concrete
transport states and on both split halves, each leaving exactly the rekeyed
cipher state. -/
theorem send_receive_rekey_witness :
    (⟨0, ⟨.rekeyed (.seed 1), 0⟩, ⟨.seed 2, 0⟩, 0⟩ : TransportState Nat).localC =
        CipherState.rekey ⟨.seed 1, 1⟩ ∧
    (⟨0, ⟨.seed 2, 0⟩, ⟨.rekeyed (.seed 1), 0⟩, 0⟩ : TransportState Nat).remote =
        CipherState.rekey ⟨.seed 1, 1⟩ ∧
    (⟨0, ⟨.rekeyed (.seed 1), 0⟩, 0⟩ : TransportSendHalf Nat).localC =
        CipherState.rekey ⟨.seed 1, 1⟩ ∧
    (⟨0, ⟨.rekeyed (.seed 1), 0⟩, 0⟩ : TransportReceiveHalf Nat).remote =
        CipherState.rekey ⟨.seed 1, 1⟩ :=
  ⟨send_receive_rekey.1 Nat ⟨0, ⟨.seed 1, 0⟩, ⟨.seed 2, 0⟩, 0⟩
      ⟨0, ⟨.rekeyed (.seed 1), 0⟩, ⟨.seed 2, 0⟩, 0⟩ [5] 17
      (7 :: 8 :: List.replicate 15 0) (by decide),
   send_receive_rekey.2.1 Nat ⟨0, ⟨.seed 2, 0⟩, ⟨.seed 1, 0⟩, 0⟩
      ⟨0, ⟨.seed 2, 0⟩, ⟨.rekeyed (.seed 1), 0⟩, 0⟩
      (7 :: 8 :: List.replicate 15 0) 1 [5] (by decide),
   send_receive_rekey.2.2.1 Nat ⟨0, ⟨.seed 1, 0⟩, 0⟩
      ⟨0, ⟨.rekeyed (.seed 1), 0⟩, 0⟩ [5] 17
      (7 :: 8 :: List.replicate 15 0) (by decide),
   send_receive_rekey.2.2.2 Nat ⟨0, ⟨.seed 1, 0⟩, 0⟩
      ⟨0, ⟨.rekeyed (.seed 1), 0⟩, 0⟩
      (7 :: 8 :: List.replicate 15 0) 1 [5] (by decide)⟩

theorem rekeyed_ne : ∀ k : CipherKey, CipherKey.rekeyed k ≠ k := by
  intro k
  induction k with
  | seed s => simp
  | rekeyed k ih => intro h; exact ih (CipherKey.rekeyed.inj h)

/-- Claim C5: `rekey()` replaces the current key with a (one-way, here
symbolic) derivation `CipherKey.rekeyed` of the current key — in particular
a key distinct from the current one — and resets the nonce counter to its
initial value, zero. -/
theorem rekey_resets (cs : CipherState) :
    cs.rekey = ⟨CipherKey.rekeyed cs.k, 0⟩ ∧ cs.rekey.k ≠ cs.k ∧ cs.rekey.n = 0 :=
  ⟨rfl, rekeyed_ne cs.k, rfl⟩

/-- Claim C9: `send` into an output buffer shorter than the input length
plus the 16-byte tag length fails with a deterministic error rather than
truncating, and `receive` into an output buffer shorter than the input
length minus the tag length likewise fails. -/
theorem buffer_contract :
    (∀ (H : Type) (st : TransportState H) (input : List Nat) (outLen : Nat),
        outLen < input.length + TAG_LEN →
        st.send input outLen = .error .notEnoughOutput) ∧
    (∀ (H : Type) (st : TransportState H) (input : List Nat) (outLen : Nat),
        outLen < input.length - TAG_LEN →
        st.receive input outLen = .error .notEnoughOutput) := by
  constructor
  · intro H st input outLen h
    simp only [TransportState.send, CipherState.encrypt_with_ad, if_pos h]
  · intro H st input outLen h
    have h16 : ¬input.length < TAG_LEN := by
      simp only [TAG_LEN] at h ⊢
      omega
    simp only [TransportState.receive, CipherState.decrypt_with_ad, if_neg h16, if_pos h]

/-- Witness for C9: a 2-byte send into a 17-byte buffer and a 20-byte
receive into a 3-byte buffer both fail with the buffer error. -/
theorem buffer_contract_witness :
    (⟨0, ⟨.seed 1, 0⟩, ⟨.seed 2, 0⟩, 0⟩ : TransportState Nat).send [1, 2] 17 =
        .error .notEnoughOutput ∧
    (⟨0, ⟨.seed 1, 0⟩, ⟨.seed 2, 0⟩, 0⟩ : TransportState Nat).receive
        (List.replicate 20 0) 3 = .error .notEnoughOutput :=
  ⟨buffer_contract.1 Nat _ [1, 2] 17 (by decide),
   buffer_contract.2 Nat _ (List.replicate 20 0) 3 (by decide)⟩

/-- Claim C10: every transport-era `send` and `receive` — on
`TransportState` and on both split halves — invokes the AEAD with the empty
associated data: each operation equals the corresponding
`encrypt_with_ad`/`decrypt_with_ad` call at associated data `[]` (followed
by the rekey), so no caller-supplied associated data can be bound to a
transport message. -/
theorem transport_empty_ad :
    (∀ (H : Type) (st : TransportState H) (input : List Nat) (outLen : Nat),
        st.send input outLen =
          (st.localC.encrypt_with_ad [] input outLen).map
            (fun pr => ({ st with localC := pr.1.rekey }, pr.2))) ∧
    (∀ (H : Type) (st : TransportState H) (input : List Nat) (outLen : Nat),
        st.receive input outLen =
          (st.remote.decrypt_with_ad [] input outLen).map
            (fun pr => ({ st with remote := pr.1.rekey }, pr.2))) ∧
    (∀ (H : Type) (s : TransportSendHalf H) (input : List Nat) (outLen : Nat),
        s.send input outLen =
          (s.localC.encrypt_with_ad [] input outLen).map
            (fun pr => ({ s with localC := pr.1.rekey }, pr.2))) ∧
    (∀ (H : Type) (r : TransportReceiveHalf H) (input : List Nat) (outLen : Nat),
        r.receive input outLen =
          (r.remote.decrypt_with_ad [] input outLen).map
            (fun pr => ({ r with remote := pr.1.rekey }, pr.2))) := by
  refine ⟨fun H st input outLen => ?_, fun H st input outLen => ?_,
    fun H s input outLen => ?_, fun H r input outLen => ?_⟩
  · cases h : st.localC.encrypt_with_ad [] input outLen with
    | error e => simp [TransportState.send, h, Except.map]
    | ok p =>
      obtain ⟨p1, p2⟩ := p
      simp [TransportState.send, h, Except.map]
  · cases h : st.remote.decrypt_with_ad [] input outLen with
    | error e => simp [TransportState.receive, h, Except.map]
    | ok p =>
      obtain ⟨p1, p2⟩ := p
      simp [TransportState.receive, h, Except.map]
  · cases h : s.localC.encrypt_with_ad [] input outLen with
    | error e => simp [TransportSendHalf.send, h, Except.map]
    | ok p =>
      obtain ⟨p1, p2⟩ := p
      simp [TransportSendHalf.send, h, Except.map]
  · cases h : r.remote.decrypt_with_ad [] input outLen with
    | error e => simp [TransportReceiveHalf.receive, h, Except.map]
    | ok p =>
      obtain ⟨p1, p2⟩ := p
      simp [TransportReceiveHalf.receive, h, Except.map]

theorem runOps_factor (ops : List HalfOp) :
    ∀ (s : TransportSendHalf H) (r : TransportReceiveHalf H),
      runOps ops s r =
        ((runSendOps (sendsOf ops) s).1, (runRecvOps (recvsOf ops) r).1,
         (runSendOps (sendsOf ops) s).2, (runRecvOps (recvsOf ops) r).2) := by
  induction ops with
  | nil => intro s r; rfl
  | cons op ops ih =>
    intro s r
    cases op with
    | sendOp i o => simp [runOps, sendsOf, recvsOf, runSendOps, ih]
    | recvOp i o => simp [runOps, sendsOf, recvsOf, runRecvOps, ih]

/-- Claim C6: `split` partitions a `TransportState` into a send half owning
the outbound (local) cipher state and a receive half owning the inbound
(remote) cipher state — fully disjoint mutable state — and running any
interleaving of sends on one half and receives on the other yields exactly
the per-half sequential results: two interleavings with the same per-half
operation subsequences produce identical states and outputs, so the two
halves' operations commute. -/
theorem split_independent :
    (∀ (H : Type) (st : TransportState H),
        st.split = (⟨st.handshake_hash, st.localC, st.remote_id⟩,
                    ⟨st.handshake_hash, st.remote, st.remote_id⟩)) ∧
    (∀ (H : Type) (ops1 ops2 : List HalfOp) (s : TransportSendHalf H)
        (r : TransportReceiveHalf H),
        sendsOf ops1 = sendsOf ops2 → recvsOf ops1 = recvsOf ops2 →
        runOps ops1 s r = runOps ops2 s r) := by
  refine ⟨fun H st => rfl, fun H ops1 ops2 s r h1 h2 => ?_⟩
  rw [runOps_factor ops1 s r, runOps_factor ops2 s r, h1, h2]

/-- Witness for C6: swapping a send past a receive in a concrete
interleaving produces identical results. -/
theorem split_independent_witness :
    runOps [.sendOp [1] 17, .recvOp (7 :: 8 :: List.replicate 15 0) 1]
        (⟨0, ⟨.seed 1, 0⟩, 0⟩ : TransportSendHalf Nat)
        (⟨0, ⟨.seed 1, 0⟩, 0⟩ : TransportReceiveHalf Nat) =
      runOps [.recvOp (7 :: 8 :: List.replicate 15 0) 1, .sendOp [1] 17]
        (⟨0, ⟨.seed 1, 0⟩, 0⟩ : TransportSendHalf Nat)
        (⟨0, ⟨.seed 1, 0⟩, 0⟩ : TransportReceiveHalf Nat) :=
  split_independent.2 Nat
    [.sendOp [1] 17, .recvOp (7 :: 8 :: List.replicate 15 0) 1]
    [.recvOp (7 :: 8 :: List.replicate 15 0) 1, .sendOp [1] 17]
    ⟨0, ⟨.seed 1, 0⟩, 0⟩ ⟨0, ⟨.seed 1, 0⟩, 0⟩ (by decide) (by decide)

/-- Claim C8: a completed handshake hands both parties transport states
reporting the same session identifier, and as any sequences of messages are
exchanged (initiator to responder, then responder to initiator), the
sender's `count_sent` and the receiver's `count_received` stay equal after
every exchange, in both directions. -/
theorem handshake_session_lockstep (H : Type) (h0 : H) (kI kR : CipherKey) (n0 : Nat)
    (idI idR : PublicKey) (msgsIR msgsRI : List (List Nat))
    (hIR : ∀ m ∈ msgsIR, ∀ x ∈ m, x < 256)
    (hRI : ∀ m ∈ msgsRI, ∀ x ∈ m, x < 256) :
    (handshakeComplete h0 kI kR n0 idI idR).1.noise_session =
      (handshakeComplete h0 kI kR n0 idI idR).2.noise_session ∧
    (handshakeComplete h0 kI kR n0 idI idR).1.count_sent =
      (handshakeComplete h0 kI kR n0 idI idR).2.count_received ∧
    ∃ ti' tr' tr'' ti'',
      runPipe msgsIR (handshakeComplete h0 kI kR n0 idI idR).1
          (handshakeComplete h0 kI kR n0 idI idR).2 = .ok (ti', tr', msgsIR) ∧
      ti'.noise_session = tr'.noise_session ∧
      ti'.count_sent = tr'.count_received ∧
      tr'.count_sent = ti'.count_received ∧
      runPipe msgsRI tr' ti' = .ok (tr'', ti'', msgsRI) ∧
      ti''.noise_session = tr''.noise_session ∧
      tr''.count_sent = ti''.count_received ∧
      ti''.count_sent = tr''.count_received := by
  obtain ⟨ti', tr', hrun1, hm1, hh1, hh2, hrem1, hloc1, _, _⟩ :=
    runPipe_ok msgsIR (handshakeComplete h0 kI kR n0 idI idR).1
      (handshakeComplete h0 kI kR n0 idI idR).2 rfl hIR
  obtain ⟨tr'', ti'', hrun2, hm2, hh3, hh4, hrem2, hloc2, _, _⟩ :=
    runPipe_ok msgsRI tr' ti' (by rw [hrem1, hloc1]; rfl) hRI
  refine ⟨rfl, rfl, ti', tr', tr'', ti'', hrun1, ?_, ?_, ?_, hrun2, ?_, ?_, ?_⟩
  · simp only [TransportState.noise_session, hh1, hh2]
    rfl
  · simp only [TransportState.count_sent, TransportState.count_received,
      CipherState.nonce, hm1]
  · simp only [TransportState.count_sent, TransportState.count_received,
      CipherState.nonce, hrem1, hloc1]
    rfl
  · simp only [TransportState.noise_session, hh3, hh4, hh1, hh2]
    rfl
  · simp only [TransportState.count_sent, TransportState.count_received,
      CipherState.nonce, hm2]
  · simp only [TransportState.count_sent, TransportState.count_received,
      CipherState.nonce, hloc2, hrem2, hm1]

/-- Witness for C8: a concrete completed handshake carrying handshake-phase
count 3, exchanging one message each way. -/
theorem handshake_session_lockstep_witness :
    (handshakeComplete (0 : Nat) (.seed 1) (.seed 2) 3 0 1).1.noise_session =
      (handshakeComplete (0 : Nat) (.seed 1) (.seed 2) 3 0 1).2.noise_session ∧
    (handshakeComplete (0 : Nat) (.seed 1) (.seed 2) 3 0 1).1.count_sent =
      (handshakeComplete (0 : Nat) (.seed 1) (.seed 2) 3 0 1).2.count_received ∧
    ∃ ti' tr' tr'' ti'',
      runPipe [[1]] (handshakeComplete (0 : Nat) (.seed 1) (.seed 2) 3 0 1).1
          (handshakeComplete (0 : Nat) (.seed 1) (.seed 2) 3 0 1).2 =
        .ok (ti', tr', [[1]]) ∧
      ti'.noise_session = tr'.noise_session ∧
      ti'.count_sent = tr'.count_received ∧
      tr'.count_sent = ti'.count_received ∧
      runPipe [[2]] tr' ti' = .ok (tr'', ti'', [[2]]) ∧
      ti''.noise_session = tr''.noise_session ∧
      tr''.count_sent = ti''.count_received ∧
      ti''.count_sent = tr''.count_received :=
  handshake_session_lockstep Nat 0 (.seed 1) (.seed 2) 3 0 1 [[1]] [[2]]
    (by decide) (by decide)

theorem encryptFrom_lt (k : CipherKey) (n : Nat) :
    ∀ (l : List Nat) (i : Nat), ∀ x ∈ encryptFrom k n i l, x < 256 := by
  intro l
  induction l with
  | nil => intro i x hx; cases hx
  | cons v vs ih =>
    intro i x hx
    simp only [encryptFrom, List.mem_cons] at hx
    rcases hx with h | h
    · subst h; exact Nat.mod_lt _ (by decide)
    · exact ih (i + 1) x h

theorem sum_set_add : ∀ (l : List Nat) (i a : Nat), i < l.length →
    (l.set i a).sum + l.getD i 0 = l.sum + a := by
  intro l
  induction l with
  | nil => intro i a h; exact absurd h (by simp)
  | cons v vs ih =>
    intro i a h
    cases i with
    | zero => simp [List.sum_cons]; omega
    | succ i =>
      have h' : i < vs.length := by simpa using h
      have := ih i a h'
      simp only [List.set, List.getD_cons_succ, List.sum_cons]
      omega

theorem xor_two_pow_ne (x bit : Nat) : x ^^^ 2 ^ bit ≠ x := by
  intro h
  have h4 : x ^^^ (x ^^^ 2 ^ bit) = x ^^^ x := by rw [h]
  rw [← Nat.xor_assoc, Nat.xor_self, Nat.zero_xor] at h4
  exact absurd h4 (pow_pos (by norm_num : (0 : Nat) < 2) bit).ne'

theorem macTag_ne_set (k : CipherKey) (n : Nat) (ad body : List Nat) (i bit : Nat)
    (hi : i < body.length) (hlt : ∀ x ∈ body, x < 256) (hbit : bit < 8) :
    macTag k n ad (body.set i (body.getD i 0 ^^^ 2 ^ bit)) ≠ macTag k n ad body := by
  intro h
  have hhead := (List.cons.inj h).1
  have hx : body.getD i 0 < 256 := by
    refine hlt _ ?_
    rw [List.getD_eq_getElem body 0 hi]
    exact List.getElem_mem hi
  have h28 : (2 : Nat) ^ 8 = 256 := by norm_num
  have h2bit : (2 : Nat) ^ bit < 2 ^ 8 :=
    Nat.pow_lt_pow_right (by norm_num) (by omega)
  have hx' : body.getD i 0 ^^^ 2 ^ bit < 256 := by
    rw [← h28]
    exact Nat.xor_lt_two_pow (by omega) h2bit
  have hne : body.getD i 0 ^^^ 2 ^ bit ≠ body.getD i 0 := xor_two_pow_ne _ bit
  have hsum := sum_set_add body i (body.getD i 0 ^^^ 2 ^ bit) hi
  omega

theorem set_xor_ne (l : List Nat) (j bit : Nat) (hj : j < l.length) :
    l.set j (l.getD j 0 ^^^ 2 ^ bit) ≠ l := by
  intro h
  have h1 : (l.set j (l.getD j 0 ^^^ 2 ^ bit)).getD j 0 = l.getD j 0 ^^^ 2 ^ bit := by
    rw [List.getD_eq_getElem _ 0 (by simpa using hj)]
    exact List.getElem_set_self _
  have h2 : (l.set j (l.getD j 0 ^^^ 2 ^ bit)).getD j 0 = l.getD j 0 := by rw [h]
  exact xor_two_pow_ne (l.getD j 0) bit (h1.symm.trans h2)

theorem decrypt_flip_fails (cs : CipherState) (m : List Nat) (i bit : Nat)
    (hi : i < m.length + TAG_LEN) (hbit : bit < 8) :
    cs.decrypt_with_ad []
      (flipAt (encryptFrom cs.k cs.n 0 m ++
        macTag cs.k cs.n [] (encryptFrom cs.k cs.n 0 m)) i bit)
      m.length = .error .authenticationFailed := by
  have hlenE : (encryptFrom cs.k cs.n 0 m).length = m.length :=
    length_encryptFrom cs.k cs.n m 0
  have hlenT : (macTag cs.k cs.n [] (encryptFrom cs.k cs.n 0 m)).length = TAG_LEN :=
    length_macTag cs.k cs.n [] _
  by_cases hcase : i < m.length
  · have hiE : i < (encryptFrom cs.k cs.n 0 m).length := by omega
    have hflip : flipAt (encryptFrom cs.k cs.n 0 m ++
        macTag cs.k cs.n [] (encryptFrom cs.k cs.n 0 m)) i bit =
          (encryptFrom cs.k cs.n 0 m).set i
            ((encryptFrom cs.k cs.n 0 m).getD i 0 ^^^ 2 ^ bit) ++
          macTag cs.k cs.n [] (encryptFrom cs.k cs.n 0 m) := by
      unfold flipAt
      rw [List.getD_append _ _ _ _ hiE, List.set_append_left _ _ hiE]
    rw [hflip]
    have hlenE' : ((encryptFrom cs.k cs.n 0 m).set i
        ((encryptFrom cs.k cs.n 0 m).getD i 0 ^^^ 2 ^ bit)).length = m.length := by
      rw [List.length_set, hlenE]
    have hlenA : (((encryptFrom cs.k cs.n 0 m).set i
        ((encryptFrom cs.k cs.n 0 m).getD i 0 ^^^ 2 ^ bit)) ++
        macTag cs.k cs.n [] (encryptFrom cs.k cs.n 0 m)).length = m.length + TAG_LEN := by
      simp [hlenE', hlenT, hlenE]
    simp only [CipherState.decrypt_with_ad, hlenA, Nat.add_sub_cancel]
    rw [if_neg (by simp [TAG_LEN]), if_neg (by omega), ← hlenE', List.take_left,
      List.drop_left, if_neg ?hne]
    case hne =>
      intro he
      exact macTag_ne_set cs.k cs.n [] (encryptFrom cs.k cs.n 0 m) i bit hiE
        (encryptFrom_lt cs.k cs.n m 0) hbit he.symm
  · have hle : (encryptFrom cs.k cs.n 0 m).length ≤ i := by omega
    have hflip : flipAt (encryptFrom cs.k cs.n 0 m ++
        macTag cs.k cs.n [] (encryptFrom cs.k cs.n 0 m)) i bit =
          encryptFrom cs.k cs.n 0 m ++
          (macTag cs.k cs.n [] (encryptFrom cs.k cs.n 0 m)).set
            (i - (encryptFrom cs.k cs.n 0 m).length)
            ((macTag cs.k cs.n [] (encryptFrom cs.k cs.n 0 m)).getD
              (i - (encryptFrom cs.k cs.n 0 m).length) 0 ^^^ 2 ^ bit) := by
      unfold flipAt
      rw [List.getD_append_right _ _ _ _ hle, List.set_append_right _ _ hle]
    rw [hflip]
    have hjT : i - (encryptFrom cs.k cs.n 0 m).length <
        (macTag cs.k cs.n [] (encryptFrom cs.k cs.n 0 m)).length := by omega
    have hlenT' : ((macTag cs.k cs.n [] (encryptFrom cs.k cs.n 0 m)).set
        (i - (encryptFrom cs.k cs.n 0 m).length)
        ((macTag cs.k cs.n [] (encryptFrom cs.k cs.n 0 m)).getD
          (i - (encryptFrom cs.k cs.n 0 m).length) 0 ^^^ 2 ^ bit)).length = TAG_LEN := by
      rw [List.length_set, hlenT]
    have hlenA : (encryptFrom cs.k cs.n 0 m ++
        (macTag cs.k cs.n [] (encryptFrom cs.k cs.n 0 m)).set
          (i - (encryptFrom cs.k cs.n 0 m).length)
          ((macTag cs.k cs.n [] (encryptFrom cs.k cs.n 0 m)).getD
            (i - (encryptFrom cs.k cs.n 0 m).length) 0 ^^^ 2 ^ bit)).length =
        m.length + TAG_LEN := by
      simp [hlenE, hlenT', hlenT]
    simp only [CipherState.decrypt_with_ad, hlenA, Nat.add_sub_cancel]
    rw [if_neg (by simp [TAG_LEN]), if_neg (by omega), ← hlenE, List.take_left,
      List.drop_left, if_neg ?hne2]
    case hne2 =>
      exact set_xor_ne (macTag cs.k cs.n [] (encryptFrom cs.k cs.n 0 m))
        (i - (encryptFrom cs.k cs.n 0 m).length) bit hjT

/-- Claim C7: flipping any single bit of any transmitted ciphertext — any
byte of the message body or of the 16-byte authentication tag — makes the
peer's `receive` fail with an authentication error; in particular no
single-bit corruption can make `receive` return `Ok`, so it never silently
yields a plaintext different from the one sent. -/
theorem tamper_detected (H : Type) (a b a' : TransportState H) (m c : List Nat)
    (i bit : Nat) (hmatch : b.remote = a.localC)
    (hsend : a.send m (m.length + TAG_LEN) = .ok (a', c))
    (hi : i < c.length) (hbit : bit < 8) :
    b.receive (flipAt c i bit) m.length = .error .authenticationFailed := by
  have hs := send_ok a m
  rw [hsend] at hs
  have hpair := Except.ok.inj hs
  have hc : c = encryptFrom a.localC.k a.localC.n 0 m ++
      macTag a.localC.k a.localC.n [] (encryptFrom a.localC.k a.localC.n 0 m) :=
    congrArg Prod.snd hpair
  subst hc
  have hi' : i < m.length + TAG_LEN := by
    rw [List.length_append, length_encryptFrom, length_macTag] at hi
    exact hi
  simp only [TransportState.receive, hmatch,
    decrypt_flip_fails a.localC m i bit hi' hbit]

/-- Witness for C7: flipping the lowest bit of the first ciphertext byte of
a concrete one-byte message makes the peer's receive fail. -/
theorem tamper_detected_witness :
    (⟨0, ⟨.seed 2, 0⟩, ⟨.seed 1, 0⟩, 0⟩ : TransportState Nat).receive
        (flipAt (7 :: 8 :: List.replicate 15 0) 0 0) 1 =
      .error .authenticationFailed :=
  tamper_detected Nat ⟨0, ⟨.seed 1, 0⟩, ⟨.seed 2, 0⟩, 0⟩
    ⟨0, ⟨.seed 2, 0⟩, ⟨.seed 1, 0⟩, 0⟩
    ⟨0, ⟨.rekeyed (.seed 1), 0⟩, ⟨.seed 2, 0⟩, 0⟩ [5]
    (7 :: 8 :: List.replicate 15 0) 0 0 rfl (by decide) (by decide) (by decide)

end Noise

end Keynesis
